import Mathlib

/-!
Verification of the atomic-chess-analysis browser extension.

The development shallowly embeds the PGN validator/sanitizer module, the
Lichess paste-page content script, the Chess.com content script's click
handler, and the element-wait utility as pure Lean functions over
`List Char` (JavaScript strings) and explicit environment records
(DOM/clipboard state).  Theorems at the end settle the specification
claims against these embeddings.
-/

/-- JavaScript whitespace (the WhiteSpace and LineTerminator productions),
used both by `String.prototype.trim` and by the regex class `\s`. -/
def jsWS (c : Char) : Bool :=
  c = ' ' || c = '\t' || c = '\n' || c = '\r' || c.toNat = 0xb || c.toNat = 0xc ||
  c.toNat = 0xa0 || c.toNat = 0x1680 ||
  (0x2000 <= c.toNat && c.toNat <= 0x200a) ||
  c.toNat = 0x2028 || c.toNat = 0x2029 || c.toNat = 0x202f || c.toNat = 0x205f ||
  c.toNat = 0x3000 || c.toNat = 0xfeff

/-- JavaScript regex word character class `\w`, i.e. `[A-Za-z0-9_]`. -/
def wordChar (c : Char) : Bool :=
  c.isAlpha || c.isDigit || c = '_'

/-- Embedding of `String.prototype.trim`: drop JS whitespace from both ends. -/
def jsTrim (l : List Char) : List Char :=
  ((l.dropWhile jsWS).reverse.dropWhile jsWS).reverse

/-- Scanner for the tail of an HTML-tag match: the regex `<[^>]*>` matched at
a `<` consumes up to and including the first later `>`; this returns the
remainder after that `>`, or `none` when no `>` follows. -/
def dropThroughGt : List Char → Option (List Char)
  | [] => none
  | c :: cs => if c = '>' then some cs else dropThroughGt cs

/-- Embedding of `sanitized.replace(/<[^>]*>/g, '')` (part_001 line 135):
at each `<` with a later `>`, delete through that `>` and continue after it;
a `<` with no later `>` never matches and is kept. -/
def stripTags (l : List Char) : List Char :=
  match l with
  | [] => []
  | c :: cs =>
    if c = '<' then
      match h : dropThroughGt cs with
      | some rest => stripTags rest
      | none => c :: stripTags cs
    else c :: stripTags cs
termination_by l.length
decreasing_by
  · have hlt : rest.length < cs.length := by
      induction cs generalizing rest with
      | nil => simp [dropThroughGt] at h
      | cons d ds ih =>
        by_cases hd : d = '>'
        · simp [dropThroughGt, hd] at h
          subst h; simp
        · simp [dropThroughGt, hd] at h
          exact Nat.lt_trans (ih _ h) (by simp)
    simp only [List.length_cons]; omega
  · simp
  · simp

/-- Case-insensitive comparison of a text character against a lowercase
pattern letter, as the regex flag `i` performs for letters. -/
def ciEq (t p : Char) : Bool :=
  t == p || t.toLower == p

/-- Case-insensitive prefix test of a (lowercase) pattern against a text. -/
def ciPre : List Char → List Char → Bool
  | [], _ => true
  | _ :: _, [] => false
  | p :: ps, t :: ts => ciEq t p && ciPre ps ts

/-- Does the text begin with a case-insensitive occurrence of the closing
tag `</script>`? Non-letter pattern characters compare literally (they are
unaffected by case-insensitivity). -/
def closeScriptAt (l : List Char) : Bool :=
  match l with
  | '<' :: '/' :: rest =>
      ciPre ("script".toList) rest && ((rest.drop 6).head? == some '>')
  | _ => false

/-- Find the first case-insensitive occurrence of `</script>` and return the
remainder after it; `none` when there is no such occurrence. -/
def findScriptClose : List Char → Option (List Char)
  | [] => none
  | c :: cs =>
    if closeScriptAt (c :: cs) then some ((c :: cs).drop 9)
    else findScriptClose cs

/-- Does the text begin (case-insensitively) with `script` followed by a
word boundary, i.e. the `script\b` part of the script-block regex? -/
def scriptOpenAt (cs : List Char) : Bool :=
  ciPre ("script".toList) cs &&
    (match (cs.drop 6).head? with
     | none => true
     | some d => !(wordChar d))

/-- Embedding of the script-block removal
`replace(/<script\b[^<]*(?:(?!<\/script>)<[^<]*)*<\/script>/gi, '')`
(part_001 line 138).  A match starts at `<script` with a word boundary and
extends through the first later case-insensitive `</script>`; when no
closing tag follows, the position does not match and scanning resumes at
the next character. -/
def stripScripts (l : List Char) : List Char :=
  match l with
  | [] => []
  | c :: cs =>
    if c = '<' && scriptOpenAt cs then
      match h : findScriptClose (cs.drop 6) with
      | some rest => stripScripts rest
      | none => c :: stripScripts cs
    else c :: stripScripts cs
termination_by l.length
decreasing_by
  · have h1 : rest.length < (cs.drop 6).length := by
      generalize cs.drop 6 = m at h
      induction m generalizing rest with
      | nil => simp [findScriptClose] at h
      | cons d ds ih =>
        by_cases hd : closeScriptAt (d :: ds) = true
        · simp [findScriptClose, hd] at h
          subst h
          simp only [List.length_drop, List.length_cons]
          omega
        · simp [findScriptClose, hd] at h
          exact Nat.lt_trans (ih _ h) (by simp)
    have h2 : (cs.drop 6).length ≤ cs.length := by
      simp only [List.length_drop]; omega
    simp only [List.length_cons]; omega
  · simp
  · simp

/-- Embedding of `replace(/\r\n/g, '\n')` (part_001 line 141). -/
def replCRLF : List Char → List Char
  | [] => []
  | [c] => [c]
  | c :: d :: cs =>
    if c = '\r' && d = '\n' then '\n' :: replCRLF cs
    else c :: replCRLF (d :: cs)
termination_by l => l.length

/-- Embedding of `replace(/\r/g, '\n')` (part_001 line 142). -/
def replCR (l : List Char) : List Char :=
  l.map (fun c => if c = '\r' then '\n' else c)

/-- Length of the leading run of newline characters. -/
def nlRun (l : List Char) : Nat :=
  (l.takeWhile (fun c => c == '\n')).length

/-- Embedding of `replace(/\n{3,}/g, '\n\n')` (part_001 line 145): a run of
three or more newlines is replaced by exactly two, and scanning resumes
after the run. -/
def collapseNL (l : List Char) : List Char :=
  match l with
  | [] => []
  | c :: cs =>
    if c = '\n' && decide (3 ≤ 1 + nlRun cs) then
      '\n' :: '\n' :: collapseNL (cs.dropWhile (fun c => c == '\n'))
    else c :: collapseNL cs
termination_by l.length
decreasing_by
  · have : (cs.dropWhile (fun c => c == '\n')).length ≤ cs.length :=
      (List.dropWhile_suffix _).sublist.length_le
    simp only [List.length_cons]; omega
  · simp

/-- The sanitization pipeline of `sanitizePGN` on an actual string
(part_001 lines 132-150): strip HTML tags, strip script blocks, normalize
CRLF then CR to LF, collapse newline runs, and trim. -/
def sanitizeCore (s : List Char) : List Char :=
  jsTrim (collapseNL (replCR (replCRLF (stripScripts (stripTags s)))))

/-- A JavaScript value as seen by the validator module's entry points:
either an actual string or a non-string value (`null`, `undefined`, a
number, an object, ...). -/
inductive JsVal : Type
  | str (s : List Char)
  | nullv
  | undef
  | nonString
deriving DecidableEq

/-- Embedding of `sanitizePGN` (part_001 lines 127-151).  The guard
`!pgn || typeof pgn !== 'string'` returns `''` for every non-string value
and also for the (falsy) empty string. -/
def sanitizePGN (v : JsVal) : List Char :=
  match v with
  | .str s => if s = [] then [] else sanitizeCore s
  | _ => []

/-- Split a string into lines at `'\n'`, as `pgn.split('\n')` does
(the empty string yields one empty line). -/
def splitNL : List Char → List (List Char)
  | [] => [[]]
  | c :: cs =>
    if c = '\n' then [] :: splitNL cs
    else
      match splitNL cs with
      | [] => [[c]]
      | line :: rest => (c :: line) :: rest

/-- Attempt to match the header regex `\[(\w+)\s+"([^"]+)"\]`
(REGEX_PATTERNS.PGN_HEADER, part_002 line 161) at the start of the text,
returning the captured key and value. -/
def matchHeaderAt (l : List Char) : Option (List Char × List Char) :=
  match l with
  | '[' :: r0 =>
    let key := r0.takeWhile wordChar
    if key = [] then none
    else
      let r1 := r0.dropWhile wordChar
      if (r1.takeWhile jsWS) = [] then none
      else
        match r1.dropWhile jsWS with
        | '"' :: r2 =>
          let v := r2.takeWhile (fun c => !(c == '"'))
          if v = [] then none
          else
            match r2.dropWhile (fun c => !(c == '"')) with
            | '"' :: ']' :: _ => some (key, v)
            | _ => none
        | _ => none
  | _ => none

/-- First match of the header regex anywhere in a line, as
`line.match(REGEX_PATTERNS.PGN_HEADER)` finds it. -/
def findHeader : List Char → Option (List Char × List Char)
  | [] => none
  | c :: cs =>
    match matchHeaderAt (c :: cs) with
    | some kv => some kv
    | none => findHeader cs

/-- Embedding of `extractHeaders` (part_001 lines 95-108): scan each line
for a header match and record the key/value pair; a later line with the
same key overwrites an earlier one, which the prepend-plus-first-lookup
representation reproduces. -/
def extractHeaders (l : List Char) : List (List Char × List Char) :=
  (splitNL l).foldl
    (fun hs line =>
      match findHeader line with
      | some kv => kv :: hs
      | none => hs) []

/-- Lookup of `headers[key]`, `none` playing the role of `undefined`. -/
def lookupHdr (hs : List (List Char × List Char)) (k : List Char) :
    Option (List Char) :=
  List.lookup k hs

/-- The six required PGN headers (part_001 line 11). -/
def REQUIRED_HEADERS : List (List Char) :=
  ["Event".toList, "Site".toList, "Date".toList, "White".toList,
   "Black".toList, "Result".toList]

/-- The four canonical result tokens (part_001 line 66). -/
def validResults : List (List Char) :=
  ["1-0".toList, "0-1".toList, "1/2-1/2".toList, "*".toList]

/-- Attempt to match the move regex `\d+\.\s*[a-zA-Z]` at the start of the
text. -/
def matchMoveAt : List Char → Bool
  | [] => false
  | c :: cs =>
    if c.isDigit then
      match cs.dropWhile Char.isDigit with
      | '.' :: r =>
        match r.dropWhile jsWS with
        | d :: _ => d.isAlpha
        | [] => false
      | _ => false
    else false

/-- Embedding of `checkForMoves` (part_001 lines 115-119): does
`/\d+\.\s*[a-zA-Z]/` match anywhere in the text? -/
def checkForMoves : List Char → Bool
  | [] => false
  | c :: cs => matchMoveAt (c :: cs) || checkForMoves cs

/-- Result record of `validatePGN`. -/
structure ValidationResult : Type where
  valid : Bool
  errors : List (List Char)
  warnings : List (List Char)
deriving DecidableEq

/-- Lowercasing of a string, as `value.toLowerCase()` acts on ASCII text. -/
def lowerList (l : List Char) : List Char :=
  l.map Char.toLower

/-- Errors pushed by the required-header loop of `validatePGN`
(part_001 lines 52-56), on the trimmed input `t`. -/
def requiredErrors (t : List Char) : List (List Char) :=
  (REQUIRED_HEADERS.filter (fun k => (lookupHdr (extractHeaders t) k).isNone)).map
    (fun k => "Missing required header: ".toList ++ k)

/-- Warning pushed when no moves are found (part_001 lines 59-62). -/
def movesWarning (t : List Char) : List (List Char) :=
  if checkForMoves t then [] else ["No moves found in PGN".toList]

/-- Warning pushed for a non-canonical result token (part_001 lines 65-70). -/
def resultWarning (t : List Char) : List (List Char) :=
  match lookupHdr (extractHeaders t) ("Result".toList) with
  | some r =>
    if validResults.contains r then []
    else ["Unusual result format: ".toList ++ r]
  | none => []

/-- Warning pushed for a missing or non-atomic variant header
(part_001 lines 73-77). -/
def variantWarning (t : List Char) : List (List Char) :=
  match lookupHdr (extractHeaders t) ("Variant".toList) with
  | none =>
    ["No Variant header found (should be \"atomic\" for atomic chess)".toList]
  | some w =>
    if lowerList w = "atomic".toList then []
    else ["Variant is \"".toList ++ w ++ "\" (expected \"atomic\")".toList]

/-- Embedding of `validatePGN` (part_001 lines 33-88): reject non-strings
and empty input, require the six headers, and emit warnings for missing
moves, a non-canonical result and a missing or non-atomic variant. -/
def validatePGN (v : JsVal) : ValidationResult :=
  match v with
  | .str s =>
    if s = [] then
      ⟨false, ["PGN is empty or invalid type".toList], []⟩
    else
      let t := jsTrim s
      if t = [] then
        ⟨false, ["PGN is empty".toList], []⟩
      else
        ⟨(requiredErrors t).isEmpty, requiredErrors t,
          movesWarning t ++ resultWarning t ++ variantWarning t⟩
  | _ => ⟨false, ["PGN is empty or invalid type".toList], []⟩

/-- Boolean leading-segment test: does `p` occur at the very start of `l`? -/
def listPreB : List Char → List Char → Bool
  | [], _ => true
  | _ :: _, [] => false
  | a :: as, b :: bs => a == b && listPreB as bs

/-- Boolean contiguous-segment test: does `p` occur anywhere inside `l`? -/
def listSegB (p : List Char) : List Char → Bool
  | [] => listPreB p []
  | c :: cs => listPreB p (c :: cs) || listSegB p cs

/-- Error messages of the extension (ERROR_MESSAGES, part_002 lines 121-131;
only those the theorems mention). -/
def CLIPBOARD_READ_DENIED_MSG : List Char :=
  "Could not read clipboard. Please check browser permissions or paste manually.".toList

/-- Error message for a missing paste textarea (ERROR_MESSAGES.TEXTAREA_NOT_FOUND). -/
def TEXTAREA_NOT_FOUND_MSG : List Char :=
  "Paste area not found. Please try manually.".toList

/-- Outcome of the browser's clipboard read as the paste script observes it:
either a rejection with `NotAllowedError` (permission denied) or a
successfully read text. -/
inductive ClipRead : Type
  | denied
  | ok (text : List Char)
deriving DecidableEq

/-- Embedding of `pastePGN` (part_000 lines 88-118), projected onto the
clipboard handling it performs.  A denied read rejects with `NotAllowedError`
and is rethrown as `CLIPBOARD_READ_DENIED`.  An empty or whitespace-only
read throws `Error('Clipboard is empty')` inside the `try` block, which the
function's own `catch` intercepts; its `name` is `'Error'`, not
`'NotAllowedError'`, so the `else` branch rethrows `CLIPBOARD_READ_DENIED`
as well. -/
def pastePGN (clip : ClipRead) : Except (List Char) (List Char) :=
  match clip with
  | .denied => .error CLIPBOARD_READ_DENIED_MSG
  | .ok text =>
    if jsTrim text = [] then .error CLIPBOARD_READ_DENIED_MSG
    else .ok text

/-- Environment of one load of the Lichess paste page. -/
structure LichessEnv : Type where
  pathname : List Char
  hasRun : Bool
  textareaFound : Bool
  clip : ClipRead
deriving DecidableEq

/-- Terminal condition of `initializeLichessPaste`. -/
inductive PasteOutcome : Type
  | skippedWrongPath
  | skippedAlreadyRan
  | errored (msg : List Char)
  | completed
deriving DecidableEq

/-- Observable trace of one run of the paste script: how it ended and
whether the submit path (`submitForm`) was reached. -/
structure PasteRun : Type where
  outcome : PasteOutcome
  submitInvoked : Bool
deriving DecidableEq

/-- Embedding of `initializeLichessPaste` (part_000 lines 12-61): guard on
the `/paste` route and the run-once flag, wait for the textarea, paste the
clipboard, and only then call `submitForm`; any thrown error lands in the
`catch` block that surfaces an error notification. -/
def initializeLichessPaste (env : LichessEnv) : PasteRun :=
  if env.pathname ≠ "/paste".toList then ⟨.skippedWrongPath, false⟩
  else if env.hasRun then ⟨.skippedAlreadyRan, false⟩
  else if !env.textareaFound then ⟨.errored TEXTAREA_NOT_FOUND_MSG, false⟩
  else
    match pastePGN env.clip with
    | .error m => ⟨.errored m, false⟩
    | .ok _ => ⟨.completed, true⟩

/-- Button states of the Chess.com content script. -/
inductive BtnState : Type
  | idle
  | loading
  | success
  | error
deriving DecidableEq

/-- Module state of the Chess.com content script: the `isProcessing` flag
and the visual state of the injected button. -/
structure ChessState : Type where
  isProcessing : Bool
  buttonState : BtnState
deriving DecidableEq

/-- Environment of one click: the result of the PGN-extraction interception
(`none` models a failed or timed-out interception) and whether the
clipboard write and the tab open succeed. -/
structure ChessEnv : Type where
  pgnExtract : Option (List Char)
  clipboardOk : Bool
  tabOk : Bool
deriving DecidableEq

/-- Side effects of one click of the injected button. -/
structure ClickEffects : Type where
  extractAttempted : Bool
  clipboardWrite : Option (List Char)
  tabOpened : Bool
deriving DecidableEq

/-- No observable side effects. -/
def noEffects : ClickEffects := ⟨false, none, false⟩

/-- Embedding of `handleButtonClick` (content_chesscom.js lines 158-228) up
to the point where the delayed reset timers are scheduled: a click while
`isProcessing` is set returns immediately; otherwise the flag is raised,
the PGN is extracted, sanitized, written to the clipboard and a Lichess tab
is opened, any failure switching the button to the error state. -/
def handleButtonClick (st : ChessState) (env : ChessEnv) :
    ChessState × ClickEffects :=
  if st.isProcessing then (st, noEffects)
  else
    match env.pgnExtract with
    | none => (⟨true, .error⟩, ⟨true, none, false⟩)
    | some pgn =>
      if pgn = [] then (⟨true, .error⟩, ⟨true, none, false⟩)
      else
        let clean := sanitizePGN (.str pgn)
        if !env.clipboardOk then (⟨true, .error⟩, ⟨true, none, false⟩)
        else if !env.tabOk then (⟨true, .error⟩, ⟨true, some clean, false⟩)
        else (⟨true, .success⟩, ⟨true, some clean, true⟩)

/-- First element matched by any selector, in selector order, as the
immediate `querySelector` loop of `waitForElement` finds it. -/
def firstQuery {α β : Type} (q : α → Option β) : List α → Option β
  | [] => none
  | s :: ss =>
    match q s with
    | some e => some e
    | none => firstQuery q ss

/-- How `waitForElement` (notifications.js lines 456-498) leaves its first
synchronous phase: either the promise is already resolved with an element
(no observer was constructed), or a MutationObserver and a timeout were
registered. -/
inductive WaitInit (β : Type) : Type
  | resolved (e : β)
  | observing

/-- The synchronous phase of `waitForElement`: try every selector against
the current DOM once; resolve immediately on the first match, otherwise
register the observer. -/
def waitForElementStart {α β : Type} (q : α → Option β) (sels : List α) :
    WaitInit β :=
  match firstQuery q sels with
  | some e => .resolved e
  | none => .observing

/-- Modelled from the spec: the sanitizer "collapses 3+ consecutive blank
lines to 2" — reading a blank-line run as a run of newline characters,
every maximal run of `k` newlines becomes `min k 2` newlines, so runs of
three or more become exactly two and shorter runs are kept. -/
def collapseRunsSpec (l : List Char) : List Char :=
  match l with
  | [] => []
  | c :: cs =>
    if c = '\n' then
      List.replicate (min (1 + nlRun cs) 2) '\n' ++
        collapseRunsSpec (cs.dropWhile (fun c => c == '\n'))
    else c :: collapseRunsSpec cs
termination_by l.length
decreasing_by
  · have : (cs.dropWhile (fun c => c == '\n')).length ≤ cs.length :=
      (List.dropWhile_suffix _).sublist.length_le
    simp only [List.length_cons]; omega
  · simp

/-- Proposition: `p` is a leading segment of `l`. -/
def ListPre (p l : List Char) : Prop := ∃ u, p ++ u = l

/-- Proposition: `p` occurs as a contiguous segment of `l`. -/
def ListSeg (p l : List Char) : Prop := ∃ t u, t ++ p ++ u = l

/-- No `<` in `l` is followed (anywhere later) by a `>`; such strings are
fixed points of the tag-removal pass. -/
def NoLtGt (l : List Char) : Prop := ¬ List.Sublist ['<', '>'] l

/-- Three consecutive newlines. -/
def triNL : List Char := ['\n', '\n', '\n']

/-- No three consecutive newlines occur in `l`. -/
def NoTriple (l : List Char) : Prop := ¬ ListSeg triNL l

/-- Concrete game record used to exercise the validator: all six required
headers and a move list. -/
def pgnAll : List Char :=
  ("[Event \"Live Chess\"]\n[Site \"Chess.com\"]\n[Date \"2024.01.01\"]\n" ++
   "[White \"alice\"]\n[Black \"bob\"]\n[Result \"1-0\"]\n\n1. e4 e5 1-0").toList

/-- Concrete game record with the six required headers but a non-canonical
result token. -/
def pgnOddResult : List Char :=
  ("[Event \"Live Chess\"]\n[Site \"Chess.com\"]\n[Date \"2024.01.01\"]\n" ++
   "[White \"alice\"]\n[Black \"bob\"]\n[Result \"??\"]\n\n1. e4 e5").toList

/-- Concrete game record lacking the Result header. -/
def pgnNoResult : List Char :=
  "[Event \"Casual\"]\n1. e4".toList

/-- Concrete paste-page environment: on the paste route, first run,
textarea present, clipboard readable but empty. -/
def envEmptyClip : LichessEnv :=
  ⟨"/paste".toList, false, true, .ok []⟩

/-- Concrete Chess.com content-script state with the in-progress flag set. -/
def stBusy : ChessState := ⟨true, .loading⟩

/-- Concrete click environment in which every step would succeed. -/
def envClickOk : ChessEnv := ⟨some ("x".toList), true, true⟩

/-- Concrete DOM query for the element-wait witness: only selector `2`
matches, yielding element `7`. -/
def qDemo : Nat → Option Nat := fun s => if s = 2 then some 7 else none

theorem listPreB_self_append (p u : List Char) : listPreB p (p ++ u) = true := by
  induction p with
  | nil => rfl
  | cons a as ih => simp [listPreB, ih]

theorem listSegB_of_listPreB (p l : List Char) (h : listPreB p l = true) :
    listSegB p l = true := by
  cases l with
  | nil => simpa [listSegB] using h
  | cons c cs => simp [listSegB, h]

theorem listSegB_append_left (p t l : List Char) (h : listSegB p l = true) :
    listSegB p (t ++ l) = true := by
  induction t with
  | nil => simpa using h
  | cons c ts ih => simp [listSegB, ih]

theorem listSegB_suffix (p t : List Char) : listSegB p (t ++ p) = true := by
  apply listSegB_append_left
  apply listSegB_of_listPreB
  have := listPreB_self_append p []
  simpa using this

theorem firstQuery_found {α β : Type} (q : α → Option β) (sels : List α)
    (h : ∃ s ∈ sels, (q s).isSome = true) :
    ∃ e pre s rest, firstQuery q sels = some e ∧ sels = pre ++ s :: rest ∧
      q s = some e ∧ ∀ s' ∈ pre, q s' = none := by
  induction sels with
  | nil => simp at h
  | cons a ss ih =>
    cases hq : q a with
    | some e =>
      exact ⟨e, [], a, ss, by simp [firstQuery, hq], by simp, hq, by simp⟩
    | none =>
      obtain ⟨s, hmem, hsome⟩ := h
      have hss : ∃ s ∈ ss, (q s).isSome = true := by
        rcases List.mem_cons.mp hmem with rfl | hmem'
        · rw [hq] at hsome; simp at hsome
        · exact ⟨s, hmem', hsome⟩
      obtain ⟨e, pre, s', rest, h1, h2, h3, h4⟩ := ih hss
      refine ⟨e, a :: pre, s', rest, ?_, by simp [h2], h3, ?_⟩
      · simpa [firstQuery, hq] using h1
      · intro x hx
        rcases List.mem_cons.mp hx with rfl | hx'
        · exact hq
        · exact h4 x hx'

/-- C6: if some selector in the list already matches an element, the
element-wait utility resolves immediately (no observer is registered,
which `WaitInit.resolved` records) with the element of the first matching
selector in selector order. -/
theorem waitForElement_immediate {α β : Type} (q : α → Option β)
    (sels : List α) (h : ∃ s ∈ sels, (q s).isSome = true) :
    ∃ e pre s rest, waitForElementStart q sels = WaitInit.resolved e ∧
      sels = pre ++ s :: rest ∧ q s = some e ∧ ∀ s' ∈ pre, q s' = none := by
  obtain ⟨e, pre, s, rest, h1, h2, h3, h4⟩ := firstQuery_found q sels h
  exact ⟨e, pre, s, rest, by simp [waitForElementStart, h1], h2, h3, h4⟩

/-- Witness for C6 at a concrete query and selector list. -/
theorem waitForElement_immediate_witness :
    ∃ e pre s rest,
      waitForElementStart qDemo [1, 2, 3] = WaitInit.resolved e ∧
      [1, 2, 3] = pre ++ s :: rest ∧ qDemo s = some e ∧
      ∀ s' ∈ pre, qDemo s' = none :=
  waitForElement_immediate qDemo [1, 2, 3] ⟨2, by decide, by decide⟩

/-- C7: on the paste route, on a fresh page with the textarea present, an
empty (or whitespace-only) clipboard read ends the run in an error state
and the submit path is never invoked. -/
theorem pasteEmptyClipboard_error (env : LichessEnv) (t : List Char)
    (h1 : env.pathname = "/paste".toList) (h2 : env.hasRun = false)
    (h3 : env.textareaFound = true) (h4 : env.clip = ClipRead.ok t)
    (h5 : jsTrim t = []) :
    initializeLichessPaste env =
      ⟨PasteOutcome.errored CLIPBOARD_READ_DENIED_MSG, false⟩ := by
  simp [initializeLichessPaste, h1, h2, h3, h4, pastePGN, h5]

/-- Witness for C7 at a concrete environment with an empty clipboard. -/
theorem pasteEmptyClipboard_error_witness :
    initializeLichessPaste envEmptyClip =
      ⟨PasteOutcome.errored CLIPBOARD_READ_DENIED_MSG, false⟩ :=
  pasteEmptyClipboard_error envEmptyClip [] rfl rfl rfl rfl rfl

/-- C8 (refuted): the paste script's clipboard read produces the very same
error, `ERROR_MESSAGES.CLIPBOARD_READ_DENIED`, for a permission-denied
read, for an empty clipboard and for a whitespace-only clipboard — the
inner `throw new Error('Clipboard is empty')` is swallowed by the
function's own `catch`, so the two failure conditions are not
distinguishable. -/
theorem pastePGN_same_error_for_denied_and_empty :
    pastePGN ClipRead.denied = Except.error CLIPBOARD_READ_DENIED_MSG ∧
    pastePGN (ClipRead.ok []) = Except.error CLIPBOARD_READ_DENIED_MSG ∧
    pastePGN (ClipRead.ok ("   ".toList)) =
      Except.error CLIPBOARD_READ_DENIED_MSG := by
  exact ⟨rfl, rfl, rfl⟩

/-- C9: a click while the in-progress flag is set is ignored: the state is
returned unchanged and no extraction, clipboard write or tab open occurs. -/
theorem clickIgnoredWhileProcessing (st : ChessState) (env : ChessEnv)
    (h : st.isProcessing = true) :
    handleButtonClick st env = (st, noEffects) := by
  simp [handleButtonClick, h]

/-- Witness for C9 at a concrete busy state. -/
theorem clickIgnoredWhileProcessing_witness :
    handleButtonClick stBusy envClickOk = (stBusy, noEffects) :=
  clickIgnoredWhileProcessing stBusy envClickOk rfl

/-- C10: every non-string input (null, undefined, any other non-string
value) makes `sanitizePGN` return the empty string; being a total Lean
function, no string operation is ever applied to a non-string value. -/
theorem sanitizePGN_nonString_empty :
    sanitizePGN JsVal.nullv = [] ∧ sanitizePGN JsVal.undef = [] ∧
    sanitizePGN JsVal.nonString = [] :=
  ⟨rfl, rfl, rfl⟩

theorem extractHeaders_nil_lookup (k : List Char) :
    lookupHdr (extractHeaders []) k = none := rfl

theorem requiredErrors_nil_of_all (t : List Char)
    (hhdr : ∀ k ∈ REQUIRED_HEADERS, (lookupHdr (extractHeaders t) k).isSome = true) :
    requiredErrors t = [] := by
  unfold requiredErrors
  rw [List.map_eq_nil_iff, List.filter_eq_nil_iff]
  intro k hk
  have := hhdr k hk
  cases hopt : lookupHdr (extractHeaders t) k <;> simp_all

theorem jsTrim_ne_nil_of_event {s : List Char}
    (hEv : (lookupHdr (extractHeaders (jsTrim s)) ("Event".toList)).isSome = true) :
    jsTrim s ≠ [] := by
  intro h0
  rw [h0, extractHeaders_nil_lookup] at hEv
  simp at hEv

/-- C2: a record whose header section yields all six required headers and
which contains a move token validates with `valid = true` and an empty
error list. -/
theorem validPGN_allHeadersAndMoves (s : List Char)
    (hhdr : ∀ k ∈ REQUIRED_HEADERS,
      (lookupHdr (extractHeaders (jsTrim s)) k).isSome = true)
    (hmv : checkForMoves (jsTrim s) = true) :
    (validatePGN (JsVal.str s)).valid = true ∧
    (validatePGN (JsVal.str s)).errors = [] := by
  have ht : jsTrim s ≠ [] :=
    jsTrim_ne_nil_of_event (hhdr ("Event".toList) (by simp [REQUIRED_HEADERS]))
  have hs0 : s ≠ [] := by intro h0; apply ht; rw [h0]; rfl
  have herr := requiredErrors_nil_of_all (jsTrim s) hhdr
  simp [validatePGN, hs0, ht, herr]

/-- Witness for C2 at a complete concrete record. -/
theorem validPGN_allHeadersAndMoves_witness :
    (validatePGN (JsVal.str pgnAll)).valid = true ∧
    (validatePGN (JsVal.str pgnAll)).errors = [] :=
  validPGN_allHeadersAndMoves pgnAll (by decide) (by decide)

/-- C3 (refuted at the empty record): the empty string has no Result
header, and `validatePGN` indeed returns `valid = false`, but its single
error, `'PGN is empty or invalid type'`, does not name the Result field. -/
theorem missingResult_counterexample :
    lookupHdr (extractHeaders (jsTrim [])) ("Result".toList) = none ∧
    (validatePGN (JsVal.str [])).valid = false ∧
    ∀ e ∈ (validatePGN (JsVal.str [])).errors,
      listSegB ("Result".toList) e = false := by
  decide

/-- C3 (amended): a record with non-whitespace content whose header section
lacks the Result header validates with `valid = false` and an error naming
Result. -/
theorem missingResult_error (s : List Char) (ht : jsTrim s ≠ [])
    (hres : lookupHdr (extractHeaders (jsTrim s)) ("Result".toList) = none) :
    (validatePGN (JsVal.str s)).valid = false ∧
    ∃ e ∈ (validatePGN (JsVal.str s)).errors,
      listSegB ("Result".toList) e = true := by
  have hs0 : s ≠ [] := by intro h0; apply ht; rw [h0]; rfl
  have hmem : ("Missing required header: ".toList ++ "Result".toList) ∈
      requiredErrors (jsTrim s) := by
    unfold requiredErrors
    apply List.mem_map_of_mem
    refine List.mem_filter.mpr ⟨by simp [REQUIRED_HEADERS], ?_⟩
    show (lookupHdr (extractHeaders (jsTrim s)) ("Result".toList)).isNone = true
    rw [hres]
    rfl
  have hne : requiredErrors (jsTrim s) ≠ [] := List.ne_nil_of_mem hmem
  have hemp : (requiredErrors (jsTrim s)).isEmpty = false := by
    cases hE : requiredErrors (jsTrim s) with
    | nil => exact absurd hE hne
    | cons a as => rfl
  refine ⟨by simp [validatePGN, hs0, ht, hemp], ?_⟩
  refine ⟨"Missing required header: ".toList ++ "Result".toList, ?_,
    listSegB_suffix _ _⟩
  simpa [validatePGN, hs0, ht] using hmem

/-- Witness for the amended C3 at a concrete record lacking Result. -/
theorem missingResult_error_witness :
    (validatePGN (JsVal.str pgnNoResult)).valid = false ∧
    ∃ e ∈ (validatePGN (JsVal.str pgnNoResult)).errors,
      listSegB ("Result".toList) e = true :=
  missingResult_error pgnNoResult (by decide) (by decide)

/-- C4: a record with all six required headers whose Result value is not a
canonical token validates with `valid = true` and a warning mentioning the
result value. -/
theorem unusualResult_warns (s r : List Char)
    (hhdr : ∀ k ∈ REQUIRED_HEADERS,
      (lookupHdr (extractHeaders (jsTrim s)) k).isSome = true)
    (hres : lookupHdr (extractHeaders (jsTrim s)) ("Result".toList) = some r)
    (hnc : validResults.contains r = false) :
    (validatePGN (JsVal.str s)).valid = true ∧
    ∃ w ∈ (validatePGN (JsVal.str s)).warnings, listSegB r w = true := by
  have ht : jsTrim s ≠ [] :=
    jsTrim_ne_nil_of_event (hhdr ("Event".toList) (by simp [REQUIRED_HEADERS]))
  have hs0 : s ≠ [] := by intro h0; apply ht; rw [h0]; rfl
  have herr := requiredErrors_nil_of_all (jsTrim s) hhdr
  have hwarn : resultWarning (jsTrim s) =
      ["Unusual result format: ".toList ++ r] := by
    unfold resultWarning
    rw [hres]
    simp only [hnc]
    simp
  refine ⟨by simp [validatePGN, hs0, ht, herr], ?_⟩
  refine ⟨"Unusual result format: ".toList ++ r, ?_, listSegB_suffix _ _⟩
  simp [validatePGN, hs0, ht, hwarn]

/-- Witness for C4 at a concrete record with Result value `??`. -/
theorem unusualResult_warns_witness :
    (validatePGN (JsVal.str pgnOddResult)).valid = true ∧
    ∃ w ∈ (validatePGN (JsVal.str pgnOddResult)).warnings,
      listSegB ("??".toList) w = true :=
  unusualResult_warns pgnOddResult ("??".toList) (by decide) (by decide)
    (by decide)

theorem dropWhile_head_not {p : Char → Bool} {l : List Char} {a : Char}
    (h : (List.dropWhile p l).head? = some a) : p a = false := by
  induction l with
  | nil => simp [List.dropWhile] at h
  | cons c cs ih =>
    by_cases hc : p c = true
    · exact ih (by simpa [List.dropWhile, hc] using h)
    · rw [List.dropWhile_cons_of_neg hc] at h
      simp at h
      subst h
      simpa using hc

theorem dropWhile_eq_self {p : Char → Bool} {l : List Char}
    (h : ∀ a, l.head? = some a → p a = false) : List.dropWhile p l = l := by
  cases l with
  | nil => rfl
  | cons c cs =>
    exact List.dropWhile_cons_of_neg (by simp [h c rfl])

theorem dropWhile_idem (p : Char → Bool) (l : List Char) :
    List.dropWhile p (List.dropWhile p l) = List.dropWhile p l := by
  apply dropWhile_eq_self
  intro a ha
  exact dropWhile_head_not ha

theorem jsTrim_decomp (l : List Char) :
    ∃ t u, t ++ jsTrim l ++ u = l := by
  obtain ⟨t1, h1⟩ := List.dropWhile_suffix (l := l) jsWS
  obtain ⟨t2, h2⟩ :=
    List.dropWhile_suffix (l := (List.dropWhile jsWS l).reverse) jsWS
  refine ⟨t1, t2.reverse, ?_⟩
  have hL : List.dropWhile jsWS l =
      (List.dropWhile jsWS (List.dropWhile jsWS l).reverse).reverse ++
        t2.reverse := by
    have := congrArg List.reverse h2
    simpa [List.reverse_append] using this.symm
  calc t1 ++ jsTrim l ++ t2.reverse
      = t1 ++ (jsTrim l ++ t2.reverse) := by rw [List.append_assoc]
    _ = t1 ++ List.dropWhile jsWS l := by rw [jsTrim, ← hL]
    _ = l := h1

theorem jsTrim_sublist (l : List Char) : List.Sublist (jsTrim l) l := by
  obtain ⟨t, u, h⟩ := jsTrim_decomp l
  have hsub : List.Sublist (jsTrim l) (t ++ (jsTrim l ++ u)) :=
    (List.sublist_append_left (jsTrim l) u).trans
      (List.sublist_append_right t _)
  rw [← List.append_assoc, h] at hsub
  exact hsub

theorem jsTrim_dropWhile_left (l : List Char) :
    List.dropWhile jsWS (jsTrim l) = jsTrim l := by
  apply dropWhile_eq_self
  intro a ha
  obtain ⟨t2, h2⟩ :=
    List.dropWhile_suffix (l := (List.dropWhile jsWS l).reverse) jsWS
  have hL : List.dropWhile jsWS l =
      (List.dropWhile jsWS (List.dropWhile jsWS l).reverse).reverse ++
        t2.reverse := by
    have := congrArg List.reverse h2
    simpa [List.reverse_append] using this.symm
  have ha' : (jsTrim l).head? = some a := ha
  rw [jsTrim] at ha'
  cases hR : (List.dropWhile jsWS (List.dropWhile jsWS l).reverse).reverse with
  | nil => rw [hR] at ha'; simp at ha'
  | cons x xs =>
    rw [hR] at ha'
    have hax : x = a := by simpa using ha'
    have hLx : (List.dropWhile jsWS l).head? = some x := by
      rw [hL, hR]; simp
    rw [← hax]
    exact dropWhile_head_not hLx

theorem jsTrim_dropWhile_rev (l : List Char) :
    List.dropWhile jsWS (jsTrim l).reverse = (jsTrim l).reverse := by
  rw [jsTrim, List.reverse_reverse]
  exact dropWhile_idem jsWS _

theorem jsTrim_eq_self_of (l : List Char)
    (h1 : List.dropWhile jsWS l = l)
    (h2 : List.dropWhile jsWS l.reverse = l.reverse) :
    jsTrim l = l := by
  rw [jsTrim, h1, h2, List.reverse_reverse]

theorem jsTrim_idem (l : List Char) : jsTrim (jsTrim l) = jsTrim l :=
  jsTrim_eq_self_of _ (jsTrim_dropWhile_left l) (jsTrim_dropWhile_rev l)

theorem stripTags_nil : stripTags [] = [] := by simp [stripTags]

theorem stripTags_cons_some {cs rest : List Char}
    (h : dropThroughGt cs = some rest) :
    stripTags ('<' :: cs) = stripTags rest := by
  rw [stripTags, if_pos (rfl : ('<' : Char) = '<')]
  split
  · rename_i r heq
    rw [h] at heq
    injection heq with h2
    rw [h2]
  · rename_i heq
    rw [h] at heq
    exact absurd heq (by simp)

theorem stripTags_cons_none {cs : List Char} (h : dropThroughGt cs = none) :
    stripTags ('<' :: cs) = '<' :: stripTags cs := by
  rw [stripTags, if_pos (rfl : ('<' : Char) = '<')]
  split
  · rename_i r heq
    rw [h] at heq
    exact absurd heq (by simp)
  · rfl

theorem stripTags_cons_ne {c : Char} {cs : List Char} (h : ¬ c = '<') :
    stripTags (c :: cs) = c :: stripTags cs := by
  rw [stripTags]
  simp [h]

theorem dropThroughGt_none_iff (l : List Char) :
    dropThroughGt l = none ↔ '>' ∉ l := by
  induction l with
  | nil => simp [dropThroughGt]
  | cons c cs ih =>
    by_cases hc : c = '>'
    · simp [dropThroughGt, hc]
    · simp [dropThroughGt, hc, ih, Ne.symm hc]

theorem dropThroughGt_some_length {l r : List Char}
    (h : dropThroughGt l = some r) : r.length < l.length := by
  induction l generalizing r with
  | nil => simp [dropThroughGt] at h
  | cons c cs ih =>
    by_cases hc : c = '>'
    · simp [dropThroughGt, hc] at h
      subst h; simp
    · simp [dropThroughGt, hc] at h
      exact Nat.lt_trans (ih h) (by simp)

theorem pair_sub_gt_mem {c : Char} {cs : List Char}
    (h : List.Sublist ['<', '>'] (c :: cs)) : '>' ∈ cs := by
  cases h with
  | cons _ h' => exact h'.mem (by simp)
  | cons₂ _ h' => exact List.singleton_sublist.mp h'

theorem noLtGt_of_not_gt {l : List Char} (h : '>' ∉ l) : NoLtGt l := by
  intro hsub
  exact h (hsub.mem (by simp))

theorem noLtGt_tail {c : Char} {cs : List Char} (h : NoLtGt (c :: cs)) :
    NoLtGt cs := fun hsub => h (hsub.cons c)

theorem noLtGt_cons {c : Char} {cs : List Char} (hc : c ≠ '<')
    (h : NoLtGt cs) : NoLtGt (c :: cs) := by
  intro hsub
  cases hsub with
  | cons _ h' => exact h h'
  | cons₂ _ h' => exact hc rfl

theorem noLtGt_lt_head {cs : List Char} (h : NoLtGt ('<' :: cs)) :
    '>' ∉ cs := by
  intro hmem
  exact h (List.Sublist.cons₂ '<' (List.singleton_sublist.mpr hmem))

theorem noLtGt_lt_cons {cs : List Char} (h : '>' ∉ cs) :
    NoLtGt ('<' :: cs) := by
  intro hsub
  exact h (pair_sub_gt_mem hsub)

theorem stripTags_id_of_no_gt {l : List Char} (h : '>' ∉ l) :
    stripTags l = l := by
  induction l with
  | nil => exact stripTags_nil
  | cons c cs ih =>
    have hcs : '>' ∉ cs := fun hm => h (List.mem_cons_of_mem c hm)
    by_cases hc : c = '<'
    · subst hc
      rw [stripTags_cons_none ((dropThroughGt_none_iff cs).mpr hcs), ih hcs]
    · rw [stripTags_cons_ne hc, ih hcs]

theorem stripTags_id_of_noLtGt {l : List Char} (h : NoLtGt l) :
    stripTags l = l := by
  induction l with
  | nil => exact stripTags_nil
  | cons c cs ih =>
    by_cases hc : c = '<'
    · subst hc
      have hcs := noLtGt_lt_head h
      rw [stripTags_cons_none ((dropThroughGt_none_iff cs).mpr hcs),
        stripTags_id_of_no_gt hcs]
    · rw [stripTags_cons_ne hc, ih (noLtGt_tail h)]

theorem stripTags_noLtGt (l : List Char) : NoLtGt (stripTags l) := by
  have main : ∀ n (l : List Char), l.length ≤ n → NoLtGt (stripTags l) := by
    intro n
    induction n with
    | zero =>
      intro l hl
      have : l = [] := List.length_eq_zero.mp (Nat.le_zero.mp hl)
      subst this
      rw [stripTags_nil]
      intro hsub
      simp at hsub
    | succ n ih =>
      intro l hl
      cases l with
      | nil =>
        rw [stripTags_nil]
        intro hsub
        simp at hsub
      | cons c cs =>
        by_cases hc : c = '<'
        · subst hc
          cases hdt : dropThroughGt cs with
          | some rest =>
            rw [stripTags_cons_some hdt]
            have hlen := dropThroughGt_some_length hdt
            exact ih rest (by simp at hl; omega)
          | none =>
            have hcs := (dropThroughGt_none_iff cs).mp hdt
            rw [stripTags_cons_none hdt, stripTags_id_of_no_gt hcs]
            exact noLtGt_lt_cons hcs
        · rw [stripTags_cons_ne hc]
          exact noLtGt_cons hc (ih cs (by simp at hl; omega))
  exact main l.length l (Nat.le_refl _)

theorem stripScripts_nil : stripScripts [] = [] := by simp [stripScripts]

theorem closeScriptAt_gt_mem {l : List Char} (h : closeScriptAt l = true) :
    '>' ∈ l := by
  unfold closeScriptAt at h
  split at h
  · rename_i rest
    have h2 := ((Bool.and_eq_true _ _).mp h).2
    have h3 : (rest.drop 6).head? = some '>' := by simpa using h2
    have h4 : '>' ∈ rest.drop 6 := by
      cases hd : rest.drop 6 with
      | nil => rw [hd] at h3; simp at h3
      | cons x xs =>
        rw [hd] at h3
        have hx : x = '>' := by simpa using h3
        rw [hx]
        simp
    have h5 : '>' ∈ rest := (List.drop_sublist 6 rest).mem h4
    simp [h5]
  · simp at h

theorem findScriptClose_none_of_not_gt {l : List Char} (h : '>' ∉ l) :
    findScriptClose l = none := by
  induction l with
  | nil => rfl
  | cons c cs ih =>
    have hc : closeScriptAt (c :: cs) = false := by
      cases hcl : closeScriptAt (c :: cs) with
      | false => rfl
      | true => exact absurd (closeScriptAt_gt_mem hcl) h
    rw [findScriptClose, if_neg (by simp [hc])]
    exact ih (fun hm => h (List.mem_cons_of_mem c hm))

theorem stripScripts_cons_of_not {c : Char} {cs : List Char}
    (h : (decide (c = '<') && scriptOpenAt cs) = false) :
    stripScripts (c :: cs) = c :: stripScripts cs := by
  rw [stripScripts, if_neg (by simp [h])]

theorem stripScripts_cons_step {c : Char} {cs : List Char}
    (h : findScriptClose (cs.drop 6) = none) :
    stripScripts (c :: cs) = c :: stripScripts cs := by
  by_cases hc : (decide (c = '<') && scriptOpenAt cs) = true
  · rw [stripScripts, if_pos hc]
    split
    · rename_i r heq
      rw [h] at heq
      exact absurd heq (by simp)
    · rfl
  · exact stripScripts_cons_of_not (by simpa using hc)

theorem stripScripts_id_of_no_gt {l : List Char} (h : '>' ∉ l) :
    stripScripts l = l := by
  induction l with
  | nil => exact stripScripts_nil
  | cons c cs ih =>
    have hcs : '>' ∉ cs := fun hm => h (List.mem_cons_of_mem c hm)
    have hdrop : '>' ∉ cs.drop 6 := fun hm => hcs ((List.drop_sublist 6 cs).mem hm)
    rw [stripScripts_cons_step (findScriptClose_none_of_not_gt hdrop), ih hcs]

theorem stripScripts_id_of_noLtGt {l : List Char} (h : NoLtGt l) :
    stripScripts l = l := by
  induction l with
  | nil => exact stripScripts_nil
  | cons c cs ih =>
    by_cases hc : c = '<'
    · subst hc
      have hcs := noLtGt_lt_head h
      have hdrop : '>' ∉ cs.drop 6 :=
        fun hm => hcs ((List.drop_sublist 6 cs).mem hm)
      rw [stripScripts_cons_step (findScriptClose_none_of_not_gt hdrop),
        stripScripts_id_of_no_gt hcs]
    · rw [stripScripts_cons_of_not (by simp [hc])]
      rw [ih (noLtGt_tail h)]

theorem noLtGt_sublist {l' l : List Char} (hsub : List.Sublist l' l)
    (h : NoLtGt l) : NoLtGt l' :=
  fun hpair => h (hpair.trans hsub)

theorem not_mem_sublist {a : Char} {l' l : List Char}
    (hsub : List.Sublist l' l) (h : a ∉ l) : a ∉ l' :=
  fun hm => h (hsub.mem hm)

theorem replCRLF_sublist (l : List Char) : List.Sublist (replCRLF l) l := by
  have main : ∀ n (l : List Char), l.length ≤ n →
      List.Sublist (replCRLF l) l := by
    intro n
    induction n with
    | zero =>
      intro l hl
      have : l = [] := List.length_eq_zero.mp (Nat.le_zero.mp hl)
      subst this
      simp [replCRLF]
    | succ n ih =>
      intro l hl
      match l with
      | [] => simp [replCRLF]
      | [c] => simp [replCRLF]
      | c :: d :: cs =>
        by_cases hcd : c = '\r' ∧ d = '\n'
        · obtain ⟨hc, hd⟩ := hcd
          subst hc; subst hd
          rw [replCRLF, if_pos (by simp)]
          exact List.Sublist.cons '\r'
            (List.Sublist.cons₂ '\n' (ih cs (by simp at hl; omega)))
        · have hcond : ¬ ((decide (c = '\r') && decide (d = '\n')) = true) := by
            simp only [Bool.and_eq_true, decide_eq_true_eq]
            exact hcd
          rw [replCRLF, if_neg hcond]
          exact List.Sublist.cons₂ c
            (ih (d :: cs) (by simp only [List.length_cons] at hl ⊢; omega))
  exact main l.length l (Nat.le_refl _)

theorem replCRLF_id_of_no_cr {l : List Char} (h : '\r' ∉ l) :
    replCRLF l = l := by
  have main : ∀ n (l : List Char), l.length ≤ n → '\r' ∉ l →
      replCRLF l = l := by
    intro n
    induction n with
    | zero =>
      intro l hl _
      have : l = [] := List.length_eq_zero.mp (Nat.le_zero.mp hl)
      subst this
      simp [replCRLF]
    | succ n ih =>
      intro l hl hcr
      match l with
      | [] => simp [replCRLF]
      | [c] => simp [replCRLF]
      | c :: d :: cs =>
        have hc : ¬ c = '\r' := fun hc => hcr (by simp [hc])
        have hcond : ¬ ((decide (c = '\r') && decide (d = '\n')) = true) := by
          simp only [Bool.and_eq_true, decide_eq_true_eq]
          intro hcd
          exact hc hcd.1
        rw [replCRLF, if_neg hcond,
          ih (d :: cs) (by simp only [List.length_cons] at hl ⊢; omega)
            (fun hm => hcr (List.mem_cons_of_mem c hm))]
  exact main l.length l (Nat.le_refl _) h

theorem replCR_id_of_no_cr {l : List Char} (h : '\r' ∉ l) : replCR l = l := by
  induction l with
  | nil => rfl
  | cons c cs ih =>
    have hc : ¬ c = '\r' := fun hcc => h (by simp [hcc])
    have hstep : replCR (c :: cs) =
        (if c = '\r' then '\n' else c) :: replCR cs := rfl
    rw [hstep, if_neg hc, ih (fun hm => h (List.mem_cons_of_mem c hm))]

theorem not_cr_replCR (l : List Char) : '\r' ∉ replCR l := by
  unfold replCR
  intro hm
  obtain ⟨c, _, hc⟩ := List.mem_map.mp hm
  by_cases h : c = '\r'
  · rw [if_pos h] at hc
    exact absurd hc (by decide)
  · rw [if_neg h] at hc
    exact h hc

theorem gt_mem_of_mem_replCR {l : List Char} (h : '>' ∈ replCR l) :
    '>' ∈ l := by
  obtain ⟨c, hc, hfc⟩ := List.mem_map.mp h
  by_cases hcr : c = '\r'
  · rw [if_pos hcr] at hfc
    exact absurd hfc (by decide)
  · rw [if_neg hcr] at hfc
    exact hfc ▸ hc

theorem noLtGt_replCR {l : List Char} (h : NoLtGt l) : NoLtGt (replCR l) := by
  intro hpair
  apply h
  clear h
  revert hpair
  induction l with
  | nil =>
    intro hpair
    simpa [replCR] using hpair
  | cons c cs ih =>
    intro hpair
    have hstep : replCR (c :: cs) =
        (if c = '\r' then '\n' else c) :: replCR cs := rfl
    rw [hstep] at hpair
    by_cases hcr : c = '\r'
    · rw [if_pos hcr] at hpair
      cases hpair with
      | cons _ h' => exact List.Sublist.cons c (ih h')
    · rw [if_neg hcr] at hpair
      cases hpair with
      | cons _ h' => exact List.Sublist.cons c (ih h')
      | cons₂ _ h' =>
        exact List.Sublist.cons₂ '<'
          (List.singleton_sublist.mpr
            (gt_mem_of_mem_replCR (List.singleton_sublist.mp h')))

theorem nlRun_nil : nlRun [] = 0 := rfl

theorem nlRun_cons_nl (cs : List Char) : nlRun ('\n' :: cs) = 1 + nlRun cs := by
  simp [nlRun, List.takeWhile]
  omega

theorem nlRun_cons_ne {c : Char} (cs : List Char) (h : ¬ c = '\n') :
    nlRun (c :: cs) = 0 := by
  unfold nlRun
  rw [List.takeWhile_cons_of_neg (by simp [h])]
  rfl

theorem one_nl_of_nlRun {m : List Char} (h : 1 ≤ nlRun m) :
    ∃ r, m = '\n' :: r := by
  cases m with
  | nil => simp [nlRun_nil] at h
  | cons c cs =>
    by_cases hc : c = '\n'
    · exact ⟨cs, by rw [hc]⟩
    · rw [nlRun_cons_ne cs hc] at h
      omega

theorem two_nl_of_nlRun {m : List Char} (h : 2 ≤ nlRun m) :
    ∃ r, m = '\n' :: '\n' :: r := by
  obtain ⟨r1, hr1⟩ := one_nl_of_nlRun (m := m) (by omega)
  subst hr1
  rw [nlRun_cons_nl] at h
  obtain ⟨r2, hr2⟩ := one_nl_of_nlRun (m := r1) (by omega)
  exact ⟨r2, by rw [hr2]⟩

theorem head_ne_nl_of_nlRun_zero {m : List Char} (h : nlRun m = 0) :
    m.head? ≠ some '\n' := by
  cases m with
  | nil => simp
  | cons c cs =>
    intro hc
    have : c = '\n' := by simpa using hc
    rw [this, nlRun_cons_nl] at h
    omega

theorem dropNL_eq_of_nlRun_zero {m : List Char} (h : nlRun m = 0) :
    m.dropWhile (fun c => c == '\n') = m := by
  apply dropWhile_eq_self
  intro a ha
  have := head_ne_nl_of_nlRun_zero h
  rw [ha] at this
  simp only [beq_eq_false_iff_ne, ne_eq]
  intro heq
  exact this (by rw [heq])

theorem collapseNL_nil : collapseNL [] = [] := by simp [collapseNL]

theorem collapseNL_cons_run {cs : List Char} (h : 3 ≤ 1 + nlRun cs) :
    collapseNL ('\n' :: cs) =
      '\n' :: '\n' :: collapseNL (cs.dropWhile (fun c => c == '\n')) := by
  rw [collapseNL, if_pos (by simp [h])]

theorem collapseNL_cons_small {c : Char} {cs : List Char}
    (h : ¬ (c = '\n' ∧ 3 ≤ 1 + nlRun cs)) :
    collapseNL (c :: cs) = c :: collapseNL cs := by
  rw [collapseNL, if_neg (by simpa using h)]

theorem head_nl_collapseNL {m : List Char}
    (h : (collapseNL m).head? = some '\n') : m.head? = some '\n' := by
  cases m with
  | nil => rw [collapseNL_nil] at h; simp at h
  | cons c cs =>
    by_cases hc : c = '\n'
    · rw [hc]; rfl
    · rw [collapseNL_cons_small (fun hand => hc hand.1)] at h
      simp at h
      exact absurd h hc

theorem listSeg_nil_tri : ¬ ListSeg triNL [] := by
  rintro ⟨t, u, h⟩
  simp [triNL] at h

theorem listPre_cons {a b : Char} {p m : List Char}
    (h : ListPre (a :: p) (b :: m)) : a = b ∧ ListPre p m := by
  obtain ⟨u, hu⟩ := h
  simp only [List.cons_append] at hu
  exact ⟨(List.cons.injEq _ _ _ _).mp hu |>.1,
    u, (List.cons.injEq _ _ _ _).mp hu |>.2⟩

theorem listPre_head {a : Char} {p m : List Char} (h : ListPre (a :: p) m) :
    m.head? = some a := by
  obtain ⟨u, hu⟩ := h
  rw [← hu]
  rfl

theorem listSeg_cons_elim {p : List Char} {c : Char} {m : List Char}
    (h : ListSeg p (c :: m)) : ListPre p (c :: m) ∨ ListSeg p m := by
  obtain ⟨t, u, hu⟩ := h
  cases t with
  | nil =>
    left
    exact ⟨u, by simpa using hu⟩
  | cons d ts =>
    right
    refine ⟨ts, u, ?_⟩
    have h2 := ((List.cons.injEq _ _ _ _).mp (by simpa using hu)).2
    rw [List.append_assoc]
    exact h2

theorem listSeg_cons_intro {p : List Char} (c : Char) {m : List Char}
    (h : ListSeg p m) : ListSeg p (c :: m) := by
  obtain ⟨t, u, hu⟩ := h
  exact ⟨c :: t, u, by simp [hu]⟩

theorem noTriple_tail {c : Char} {m : List Char} (h : NoTriple (c :: m)) :
    NoTriple m := fun hseg => h (listSeg_cons_intro c hseg)

theorem noTriple_cons_ne {c : Char} {m : List Char} (h : NoTriple m)
    (hc : c ≠ '\n') : NoTriple (c :: m) := by
  intro hseg
  rcases listSeg_cons_elim hseg with hpre | hseg'
  · exact hc ((listPre_cons hpre).1.symm)
  · exact h hseg'

theorem noTriple_cons_one {m : List Char} (h : NoTriple m)
    (hm : m.head? ≠ some '\n') : NoTriple ('\n' :: m) := by
  intro hseg
  rcases listSeg_cons_elim hseg with hpre | hseg'
  · exact hm (listPre_head (listPre_cons hpre).2)
  · exact h hseg'

theorem noTriple_cons_two {m : List Char} (h : NoTriple m)
    (hm : m.head? ≠ some '\n') : NoTriple ('\n' :: '\n' :: m) := by
  intro hseg
  rcases listSeg_cons_elim hseg with hpre | hseg'
  · exact hm (listPre_head (listPre_cons (listPre_cons hpre).2).2)
  · rcases listSeg_cons_elim hseg' with hpre2 | hseg2
    · exact hm (listPre_head (listPre_cons hpre2).2)
    · exact h hseg2

theorem collapseNL_noTriple (l : List Char) : NoTriple (collapseNL l) := by
  have main : ∀ n (l : List Char), l.length ≤ n → NoTriple (collapseNL l) := by
    intro n
    induction n with
    | zero =>
      intro l hl
      have : l = [] := List.length_eq_zero.mp (Nat.le_zero.mp hl)
      subst this
      rw [collapseNL_nil]
      exact listSeg_nil_tri
    | succ n ih =>
      intro l hl
      cases l with
      | nil =>
        rw [collapseNL_nil]
        exact listSeg_nil_tri
      | cons c cs =>
        by_cases hc : c = '\n'
        · subst hc
          by_cases hr : 3 ≤ 1 + nlRun cs
          · rw [collapseNL_cons_run hr]
            have hdlen : (cs.dropWhile (fun c => c == '\n')).length ≤ cs.length :=
              (List.dropWhile_suffix _).sublist.length_le
            have hX : NoTriple (collapseNL (cs.dropWhile (fun c => c == '\n'))) :=
              ih _ (by simp only [List.length_cons] at hl; omega)
            apply noTriple_cons_two hX
            intro hhd
            have := dropWhile_head_not (head_nl_collapseNL hhd)
            simp at this
          · rw [collapseNL_cons_small (fun hand => hr hand.2)]
            have hr1 : nlRun cs ≤ 1 := by omega
            by_cases h0 : nlRun cs = 0
            · apply noTriple_cons_one
                (ih cs (by simp only [List.length_cons] at hl; omega))
              intro hhd
              exact head_ne_nl_of_nlRun_zero h0 (head_nl_collapseNL hhd)
            · have h1 : nlRun cs = 1 := by omega
              obtain ⟨cs2, hcs2⟩ := one_nl_of_nlRun (m := cs) (by omega)
              subst hcs2
              rw [nlRun_cons_nl] at h1
              have h20 : nlRun cs2 = 0 := by omega
              rw [collapseNL_cons_small
                (fun hand => by have := hand.2; omega)]
              apply noTriple_cons_two
                (ih cs2 (by simp only [List.length_cons] at hl; omega))
              intro hhd
              exact head_ne_nl_of_nlRun_zero h20 (head_nl_collapseNL hhd)
        · rw [collapseNL_cons_small (fun hand => hc hand.1)]
          exact noTriple_cons_ne
            (ih cs (by simp only [List.length_cons] at hl; omega)) hc
  exact main l.length l (Nat.le_refl _)

theorem collapseNL_id_of_noTriple {l : List Char} (h : NoTriple l) :
    collapseNL l = l := by
  induction l with
  | nil => exact collapseNL_nil
  | cons c cs ih =>
    by_cases hc : c = '\n'
    · subst hc
      by_cases hr : 3 ≤ 1 + nlRun cs
      · obtain ⟨r, hrr⟩ := two_nl_of_nlRun (m := cs) (by omega)
        subst hrr
        exact absurd ⟨[], r, rfl⟩ h
      · rw [collapseNL_cons_small (fun hand => hr hand.2), ih (noTriple_tail h)]
    · rw [collapseNL_cons_small (fun hand => hc hand.1), ih (noTriple_tail h)]

theorem collapseNL_sublist (l : List Char) :
    List.Sublist (collapseNL l) l := by
  have main : ∀ n (l : List Char), l.length ≤ n →
      List.Sublist (collapseNL l) l := by
    intro n
    induction n with
    | zero =>
      intro l hl
      have : l = [] := List.length_eq_zero.mp (Nat.le_zero.mp hl)
      subst this
      rw [collapseNL_nil]
    | succ n ih =>
      intro l hl
      cases l with
      | nil => rw [collapseNL_nil]
      | cons c cs =>
        by_cases hc : c = '\n'
        · subst hc
          by_cases hr : 3 ≤ 1 + nlRun cs
          · rw [collapseNL_cons_run hr]
            obtain ⟨r, hrr⟩ := two_nl_of_nlRun (m := cs) (by omega)
            subst hrr
            rw [List.dropWhile_cons_of_pos (by simp),
              List.dropWhile_cons_of_pos (by simp)]
            have hd : List.Sublist
                (collapseNL (r.dropWhile (fun c => c == '\n'))) r := by
              have h1 : List.Sublist
                  (collapseNL (r.dropWhile (fun c => c == '\n')))
                  (r.dropWhile (fun c => c == '\n')) := by
                apply ih
                have := (List.dropWhile_suffix
                  (fun c => c == '\n') (l := r)).sublist.length_le
                simp only [List.length_cons] at hl
                omega
              exact h1.trans (List.dropWhile_suffix _).sublist
            exact List.Sublist.cons₂ '\n' (List.Sublist.cons₂ '\n'
              (List.Sublist.cons '\n' hd))
          · rw [collapseNL_cons_small (fun hand => hr hand.2)]
            exact List.Sublist.cons₂ '\n'
              (ih cs (by simp only [List.length_cons] at hl; omega))
        · rw [collapseNL_cons_small (fun hand => hc hand.1)]
          exact List.Sublist.cons₂ c
            (ih cs (by simp only [List.length_cons] at hl; omega))
  exact main l.length l (Nat.le_refl _)

theorem replCRLF_nil : replCRLF [] = [] := by simp [replCRLF]

theorem collapseRunsSpec_nil : collapseRunsSpec [] = [] := by
  simp [collapseRunsSpec]

theorem collapseRunsSpec_cons_nl (cs : List Char) :
    collapseRunsSpec ('\n' :: cs) =
      List.replicate (min (1 + nlRun cs) 2) '\n' ++
        collapseRunsSpec (cs.dropWhile (fun c => c == '\n')) := by
  rw [collapseRunsSpec, if_pos rfl]

theorem collapseRunsSpec_cons_ne {c : Char} (cs : List Char) (h : ¬ c = '\n') :
    collapseRunsSpec (c :: cs) = c :: collapseRunsSpec cs := by
  rw [collapseRunsSpec, if_neg h]

theorem collapseNL_eq_runsSpec (l : List Char) :
    collapseNL l = collapseRunsSpec l := by
  have main : ∀ n (l : List Char), l.length ≤ n →
      collapseNL l = collapseRunsSpec l := by
    intro n
    induction n with
    | zero =>
      intro l hl
      have : l = [] := List.length_eq_zero.mp (Nat.le_zero.mp hl)
      subst this
      rw [collapseNL_nil, collapseRunsSpec_nil]
    | succ n ih =>
      intro l hl
      cases l with
      | nil => rw [collapseNL_nil, collapseRunsSpec_nil]
      | cons c cs =>
        by_cases hc : c = '\n'
        · subst hc
          rw [collapseRunsSpec_cons_nl]
          by_cases hr2 : 2 ≤ nlRun cs
          · rw [collapseNL_cons_run (by omega)]
            have hmin : min (1 + nlRun cs) 2 = 2 := by omega
            rw [hmin]
            have hd : (cs.dropWhile (fun c => c == '\n')).length ≤ cs.length :=
              (List.dropWhile_suffix _).sublist.length_le
            rw [ih (cs.dropWhile (fun c => c == '\n'))
              (by simp only [List.length_cons] at hl; omega)]
            rfl
          · by_cases h0 : nlRun cs = 0
            · rw [collapseNL_cons_small (fun hand => by have := hand.2; omega)]
              have hmin : min (1 + nlRun cs) 2 = 1 := by omega
              rw [hmin, dropNL_eq_of_nlRun_zero h0,
                ih cs (by simp only [List.length_cons] at hl; omega)]
              rfl
            · have h1 : nlRun cs = 1 := by omega
              obtain ⟨cs2, hcs2⟩ := one_nl_of_nlRun (m := cs) (by omega)
              subst hcs2
              rw [nlRun_cons_nl] at h1
              have h20 : nlRun cs2 = 0 := by omega
              rw [collapseNL_cons_small (fun hand => by have := hand.2; omega),
                collapseNL_cons_small
                  (fun hand => by have := hand.2; omega)]
              have hmin : min (1 + nlRun ('\n' :: cs2)) 2 = 2 := by
                rw [nlRun_cons_nl]; omega
              rw [hmin, List.dropWhile_cons_of_pos (by simp),
                dropNL_eq_of_nlRun_zero h20,
                ih cs2 (by simp only [List.length_cons] at hl; omega)]
              rfl
        · rw [collapseNL_cons_small (fun hand => hc hand.1),
            collapseRunsSpec_cons_ne cs hc,
            ih cs (by simp only [List.length_cons] at hl; omega)]
  exact main l.length l (Nat.le_refl _)

theorem listSeg_trans {p m l : List Char} (h1 : ListSeg p m)
    (h2 : ∃ t u, t ++ m ++ u = l) : ListSeg p l := by
  obtain ⟨t1, u1, hm⟩ := h1
  obtain ⟨t2, u2, hl⟩ := h2
  refine ⟨t2 ++ t1, u1 ++ u2, ?_⟩
  rw [← hl, ← hm]
  simp [List.append_assoc]

theorem noTriple_jsTrim {l : List Char} (h : NoTriple l) :
    NoTriple (jsTrim l) :=
  fun hseg => h (listSeg_trans hseg (jsTrim_decomp l))

theorem sanitizeCore_facts (s : List Char) :
    NoLtGt (sanitizeCore s) ∧ '\r' ∉ sanitizeCore s ∧
    NoTriple (sanitizeCore s) ∧ jsTrim (sanitizeCore s) = sanitizeCore s := by
  have hscripts : stripScripts (stripTags s) = stripTags s :=
    stripScripts_id_of_noLtGt (stripTags_noLtGt s)
  have hcollapse := collapseNL_sublist (replCR (replCRLF (stripTags s)))
  have htrim := jsTrim_sublist
    (collapseNL (replCR (replCRLF (stripTags s))))
  refine ⟨?_, ?_, ?_, ?_⟩
  · unfold sanitizeCore
    rw [hscripts]
    exact noLtGt_sublist htrim (noLtGt_sublist hcollapse
      (noLtGt_replCR (noLtGt_sublist (replCRLF_sublist _)
        (stripTags_noLtGt s))))
  · unfold sanitizeCore
    rw [hscripts]
    exact not_mem_sublist htrim (not_mem_sublist hcollapse
      (not_cr_replCR _))
  · unfold sanitizeCore
    rw [hscripts]
    exact noTriple_jsTrim (collapseNL_noTriple _)
  · unfold sanitizeCore
    rw [hscripts]
    exact jsTrim_idem _

theorem sanitizeCore_idem (s : List Char) :
    sanitizeCore (sanitizeCore s) = sanitizeCore s := by
  obtain ⟨f1, f2, f3, f4⟩ := sanitizeCore_facts s
  conv_lhs => rw [sanitizeCore]
  rw [stripTags_id_of_noLtGt f1, stripScripts_id_of_noLtGt f1,
    replCRLF_id_of_no_cr f2, replCR_id_of_no_cr f2,
    collapseNL_id_of_noTriple f3, f4]

/-- C1: `sanitizePGN` is idempotent on every input string. -/
theorem sanitizePGN_idempotent (s : List Char) :
    sanitizePGN (JsVal.str (sanitizePGN (JsVal.str s))) =
      sanitizePGN (JsVal.str s) := by
  by_cases hs : s = []
  · subst hs
    rfl
  · simp only [sanitizePGN, if_neg hs]
    by_cases hout : sanitizeCore s = []
    · simp [hout]
    · rw [if_neg hout]
      exact sanitizeCore_idem s

/-- C5: on every input string, `sanitizePGN` equals the pipeline in which
the newline-collapsing step is the spec-side description (each maximal run
of three or more newlines becomes exactly two, shorter runs are kept);
moreover its output contains no carriage return (line endings are
normalized to `'\n'`), contains no three consecutive newlines, and is a
fixed point of trimming. -/
theorem sanitizePGN_normalizes (s : List Char) :
    sanitizePGN (JsVal.str s) =
      jsTrim (collapseRunsSpec (replCR (replCRLF
        (stripScripts (stripTags s))))) ∧
    '\r' ∉ sanitizePGN (JsVal.str s) ∧
    NoTriple (sanitizePGN (JsVal.str s)) ∧
    jsTrim (sanitizePGN (JsVal.str s)) = sanitizePGN (JsVal.str s) := by
  by_cases hs : s = []
  · subst hs
    refine ⟨?_, by simp [sanitizePGN], ?_, rfl⟩
    · show ([] : List Char) = _
      rw [stripTags_nil, stripScripts_nil, replCRLF_nil,
        show replCR ([] : List Char) = [] from rfl, collapseRunsSpec_nil]
      rfl
    · show NoTriple []
      exact listSeg_nil_tri
  · obtain ⟨f1, f2, f3, f4⟩ := sanitizeCore_facts s
    simp only [sanitizePGN, if_neg hs]
    refine ⟨?_, f2, f3, f4⟩
    rw [sanitizeCore, collapseNL_eq_runsSpec]
